import Mathlib

/-!
Verification of the QuizGen flashcard pipeline (src/app.py, src/models.py).

The persisted store (the `flashcard` table) is modelled as a `List Flashcard`
in stable iteration order (primary-key order: earlier rows first, new rows
appended at the end).  The per-session staging store (`session['pending_flashcards']`
and `session['presentation_name']`) is modelled as `SessionState`.  Database
transactions are modelled by explicit success flags: a failing commit leaves
the committed store exactly as it was at the previous successful commit
(SQLAlchemy session semantics); queries issued while inserts/deletes are
pending see those pending changes (autoflush).
-/

/-- A staged candidate flashcard as held in `session['pending_flashcards']`:
a dict with keys `type`, `front`, `back` (src/app.py upload_file / generate_ai_cards). -/
structure Card where
  type : String
  front : String
  back : String
deriving DecidableEq

/-- A persisted flashcard row (src/models.py `Flashcard`).  The `id` and
`created_at` columns are not modelled; row identity and iteration order are
carried by the position in the store list. -/
structure Flashcard where
  type : String
  front : String
  back : String
  presentationName : String
deriving DecidableEq

/-- The per-session staging state: `session.get('pending_flashcards', [])`
and `session.get('presentation_name')`. -/
structure SessionState where
  pendingFlashcards : List Card
  presentationName : Option String
deriving DecidableEq

/-- src/app.py lines 146-149 and 333-336: before staging, a `back` longer than
300 characters is replaced by its first 297 characters plus `'...'`. -/
def truncBack (s : String) : String :=
  if s.length > 300 then s.take 297 ++ "..." else s

/-- The staging transformation applied to every extracted or generated
candidate before it is stored in the session. -/
def stageCards (cards : List Card) : List Card :=
  cards.map fun c => { c with back := truncBack c.back }

/-- A raw value submitted in the `selected_cards` form field: either a string
that parses as an integer, or a non-numeric string. -/
inductive FormVal where
  | num (i : Int)
  | nonNum
deriving DecidableEq

/-- src/app.py lines 219-224: `[int(idx) for idx in selected_indices]`; a
`ValueError` on any element discards the whole list (`selected_indices = []`). -/
def parseIndices (l : List FormVal) : List Int :=
  if l.any (fun v => match v with | .nonNum => true | .num _ => false) then []
  else l.filterMap (fun v => match v with | .num i => some i | .nonNum => none)

/-- Python list indexing `l[i]` for an `Int` index: non-negative indices count
from the front, negative indices from the back; out-of-range raises
(`none` = `IndexError`). -/
def pyGet (l : List α) (i : Int) : Option α :=
  if 0 ≤ i then l.get? i.toNat
  else if 0 ≤ i + l.length then l.get? (i + l.length).toNat
  else none

/-- src/app.py lines 230-234: `for i in selected_indices: if i < len(all_flashcards):
selected_flashcards.append(all_flashcards[i])`.  `none` models an uncaught
`IndexError` from a negative index below `-len` (the guard only checks the
upper bound). -/
def selectCards (batch : List Card) : List Int → Option (List Card)
  | [] => some []
  | i :: rest =>
    if i < (batch.length : Int) then
      match pyGet batch i with
      | none => none
      | some c => (selectCards batch rest).map (fun s => c :: s)
    else selectCards batch rest

/-- The whitespace characters recognised by Python's `str.strip()`. -/
def isPySpace (c : Char) : Bool :=
  c == ' ' || c == '\t' || c == '\n' || c == '\r' || c == '\x0b' || c == '\x0c'

/-- Python `str.strip()`: remove leading and trailing whitespace. -/
def pyStrip (s : String) : String :=
  String.mk (((s.data.dropWhile isPySpace).reverse.dropWhile isPySpace).reverse)

/-- src/app.py lines 243-253: iterate the custom-entry fields in parallel
(positions past the end of `custom_back`/`custom_type` are skipped, which is
equivalent to stopping at the shortest list); trim `front`/`back` and keep the
entry only when both are non-empty; `type` is taken verbatim. -/
def buildCustoms : List String → List String → List String → List Card
  | f :: fs, b :: bs, t :: ts =>
    (if pyStrip f ≠ "" ∧ pyStrip b ≠ "" then [⟨t, pyStrip f, pyStrip b⟩] else []) ++
      buildCustoms fs bs ts
  | _, _, _ => []

/-- src/app.py lines 271-289: for each candidate, query for an existing row
with the same `front` and `presentation_name` (pending inserts are visible via
autoflush); skip on a hit, otherwise append a new row.  Returns the store with
pending inserts, the `new_count` and the `existing_count`. -/
def insertLoop (p : String) (db : List Flashcard) : List Card → List Flashcard × Nat × Nat
  | [] => (db, 0, 0)
  | c :: rest =>
    if db.any (fun r => r.front = c.front ∧ r.presentationName = p) then
      let r := insertLoop p db rest
      (r.1, r.2.1, r.2.2 + 1)
    else
      let r := insertLoop p (db ++ [⟨c.type, c.front, c.back, p⟩]) rest
      (r.1, r.2.1 + 1, r.2.2)

/-- The observable outcome of a `save_flashcards` request. -/
inductive SaveOutcome where
  | noSession
  | nothingSelected
  | indexError
  | persistenceError
  | success
deriving DecidableEq

/-- Final state and report of a `save_flashcards` request. -/
structure SaveResult where
  outcome : SaveOutcome
  sess : SessionState
  db : List Flashcard
  newCount : Nat
  skipped : Nat
deriving DecidableEq

/-- The request form data of a `save_flashcards` call. -/
structure SaveInput where
  selectedRaw : List FormVal
  customFronts : List String
  customBacks : List String
  customTypes : List String
  clearExisting : Bool
deriving DecidableEq

/-- src/app.py lines 203-311, `save_flashcards`.  `clearCommitOk` is the fate
of the `db.session.commit()` at line 265 (the one that commits the
`clear_existing` deletions on their own), `insertCommitOk` the fate of the
commit at line 291.  A failed commit raises, is caught by the handler at line
308, and leaves the committed store as it was at the last successful commit;
the session staging data is popped only on full success (lines 295-296). -/
def save_flashcards (sess : SessionState) (db0 : List Flashcard) (inp : SaveInput)
    (clearCommitOk insertCommitOk : Bool) : SaveResult :=
  let batch := sess.pendingFlashcards
  let p := sess.presentationName.getD "custom"
  if batch = [] then ⟨.noSession, sess, db0, 0, 0⟩
  else
    let idxs := parseIndices inp.selectedRaw
    if idxs = [] then ⟨.nothingSelected, sess, db0, 0, 0⟩
    else
      match selectCards batch idxs with
      | none => ⟨.indexError, sess, db0, 0, 0⟩
      | some sel =>
        let cands := sel ++ buildCustoms inp.customFronts inp.customBacks inp.customTypes
        if cands = [] then ⟨.nothingSelected, sess, db0, 0, 0⟩
        else
          if inp.clearExisting ∧ ¬ clearCommitOk then ⟨.persistenceError, sess, db0, 0, 0⟩
          else
            let db1 := if inp.clearExisting then
                db0.filter (fun r => r.presentationName ≠ p) else db0
            let r := insertLoop p db1 cands
            if insertCommitOk then ⟨.success, ⟨[], none⟩, r.1, r.2.1, r.2.2⟩
            else ⟨.persistenceError, sess, db1, 0, 0⟩

/-- src/app.py lines 380-399, `reset_all`: `session.clear()` first, then count
and delete every row and commit; on a failed commit the transaction is rolled
back (store unchanged) but the session stays cleared.  Returns the new session,
the new store, and `some count` on success (`none` on failure). -/
def reset_all (sess : SessionState) (db : List Flashcard) (commitOk : Bool) :
    SessionState × List Flashcard × Option Nat :=
  if commitOk then (⟨[], none⟩, [], some db.length)
  else (⟨[], none⟩, db, none)

/-- src/app.py line 464: the content key of the cross-document dedup pass,
`f"{card.front.strip()}|{card.back.strip()}|{card.type.strip()}"`. -/
def contentKey (c : Flashcard) : String :=
  pyStrip c.front ++ "|" ++ pyStrip c.back ++ "|" ++ pyStrip c.type

/-- First-wins deduplication with an accumulator of already-seen keys (the
`seen_cards` dict of src/app.py lines 460-471): a record whose key was seen is
deleted (counted), otherwise it is kept and its key recorded.  Returns the
surviving records in order and the number deleted. -/
def accDedup {α : Type} [DecidableEq α] (key : Flashcard → α) :
    List Flashcard → List α → List Flashcard × Nat
  | [], _ => ([], 0)
  | c :: rest, seen =>
    if key c ∈ seen then
      let r := accDedup key rest seen
      (r.1, r.2 + 1)
    else
      let r := accDedup key rest (key c :: seen)
      (c :: r.1, r.2)

/-- src/app.py lines 476-489: the per-presentation pass for one presentation
`p`, walked over the whole store (rows of other presentations pass through
untouched); `seen` is the `unique_fronts` dict, keyed on the exact `front`. -/
def pass2One : List Flashcard → String → List String → List Flashcard × Nat
  | [], _, _ => ([], 0)
  | c :: rest, p, seen =>
    if c.presentationName = p then
      if c.front ∈ seen then
        let r := pass2One rest p seen
        (r.1, r.2 + 1)
      else
        let r := pass2One rest p (c.front :: seen)
        (c :: r.1, r.2)
    else
      let r := pass2One rest p seen
      (c :: r.1, r.2)

/-- src/app.py lines 474-489: run the per-presentation pass for every
presentation in the list, accumulating the removal count. -/
def pass2 : List String → List Flashcard → List Flashcard × Nat
  | [], l => (l, 0)
  | p :: ps, l =>
    let r1 := pass2One l p []
    let r2 := pass2 ps r1.1
    (r2.1, r1.2 + r2.2)

/-- src/app.py lines 443-498, `remove_duplicates` (success path; a failed
commit rolls the whole operation back).  The distinct presentation list is
computed from the store before either pass runs (line 450). -/
def remove_duplicates (db : List Flashcard) : List Flashcard × Nat :=
  let ps := (db.map (fun c => c.presentationName)).dedup
  let r1 := accDedup contentKey db []
  let r2 := pass2 ps r1.1
  (r2.1, r1.2 + r2.2)

/-- The cross-document key as the spec states it: the exact tuple of
(front, back, kind) with surrounding whitespace stripped. -/
def tupleKey (c : Flashcard) : String × String × String :=
  (pyStrip c.front, pyStrip c.back, pyStrip c.type)

/-- The per-presentation key, spec-side: a record's presentation together with
its exact (unstripped) `front`. -/
def pairKey (c : Flashcard) : String × String :=
  (c.presentationName, c.front)

/-- Modelled from the spec (§4.2): first-wins deduplication stated
positionally — a record is kept exactly when no record earlier in the
iteration order shares its key; `pre` is the list of records already
iterated past. -/
def posKeep {α : Type} [DecidableEq α] (key : Flashcard → α) :
    List Flashcard → List Flashcard → List Flashcard
  | _, [] => []
  | pre, c :: rest =>
    if key c ∈ pre.map key then posKeep key (pre ++ [c]) rest
    else c :: posKeep key (pre ++ [c]) rest

/-- Modelled from the spec (§4.2): the whole dedup operation for a given
cross-document key function: first the cross-document first-wins pass over the
full store, then the per-presentation first-wins pass on `front` over the
remaining records, returning the total number removed by both passes. -/
def specRemoveDuplicatesWith {α : Type} [DecidableEq α] (key : Flashcard → α)
    (db : List Flashcard) : List Flashcard × Nat :=
  let s1 := posKeep key [] db
  let s2 := posKeep pairKey [] s1
  (s2, (db.length - s1.length) + (s1.length - s2.length))

/-- The duplicate-prevention invariant of the spec (§3): within a given
`presentationName`, at most one record exists with a given `front`. -/
def PresFrontUnique (db : List Flashcard) : Prop :=
  List.Pairwise (fun c d => ¬(c.presentationName = d.presentationName ∧ c.front = d.front)) db

example : remove_duplicates
    [⟨"vocabulary", "a|b", "c", "P"⟩, ⟨"vocabulary", "a", "b|c", "Q"⟩] =
    ([⟨"vocabulary", "a|b", "c", "P"⟩], 1) := by decide

example : specRemoveDuplicatesWith tupleKey
    [⟨"vocabulary", "a|b", "c", "P"⟩, ⟨"vocabulary", "a", "b|c", "Q"⟩] =
    ([⟨"vocabulary", "a|b", "c", "P"⟩, ⟨"vocabulary", "a", "b|c", "Q"⟩], 0) := by decide

example : remove_duplicates
    [⟨"vocabulary", "x", "b1", "P"⟩, ⟨"vocabulary", "x", "b2", "P"⟩,
     ⟨"vocabulary", "y", "b3", "P"⟩, ⟨"vocabulary", "y", "b3", "Q"⟩] =
    ([⟨"vocabulary", "x", "b1", "P"⟩, ⟨"vocabulary", "y", "b3", "P"⟩], 2) := by decide

example : specRemoveDuplicatesWith contentKey
    [⟨"vocabulary", "x", "b1", "P"⟩, ⟨"vocabulary", "x", "b2", "P"⟩,
     ⟨"vocabulary", "y", "b3", "P"⟩, ⟨"vocabulary", "y", "b3", "Q"⟩] =
    ([⟨"vocabulary", "x", "b1", "P"⟩, ⟨"vocabulary", "y", "b3", "P"⟩], 2) := by decide

theorem accDedup_sublist {α : Type} [DecidableEq α] (key : Flashcard → α)
    (l : List Flashcard) (seen : List α) : (accDedup key l seen).1.Sublist l := by
  induction l generalizing seen with
  | nil => simp [accDedup]
  | cons c rest ih =>
    simp only [accDedup]
    split
    · exact (ih seen).cons c
    · exact (ih _).cons₂ c

theorem accDedup_len {α : Type} [DecidableEq α] (key : Flashcard → α)
    (l : List Flashcard) (seen : List α) :
    (accDedup key l seen).1.length + (accDedup key l seen).2 = l.length := by
  induction l generalizing seen with
  | nil => simp [accDedup]
  | cons c rest ih =>
    simp only [accDedup]
    split
    · have := ih seen; simp only [List.length_cons]; omega
    · have := ih (key c :: seen); simp only [List.length_cons]; omega

theorem accDedup_nodup {α : Type} [DecidableEq α] (key : Flashcard → α)
    (l : List Flashcard) (seen : List α) :
    ((accDedup key l seen).1.map key).Nodup ∧
      ∀ k ∈ seen, k ∉ (accDedup key l seen).1.map key := by
  induction l generalizing seen with
  | nil => simp [accDedup]
  | cons c rest ih =>
    simp only [accDedup]
    split
    · exact ih seen
    · rename_i hns
      obtain ⟨h1, h2⟩ := ih (key c :: seen)
      refine ⟨?_, ?_⟩
      · simp only [List.map_cons, List.nodup_cons]
        exact ⟨h2 (key c) (by simp), h1⟩
      · intro k hk
        simp only [List.map_cons, List.mem_cons, not_or]
        constructor
        · rintro rfl; exact hns hk
        · exact h2 k (by simp [hk])

theorem accDedup_id {α : Type} [DecidableEq α] (key : Flashcard → α)
    (l : List Flashcard) (seen : List α) (h1 : (l.map key).Nodup)
    (h2 : ∀ k ∈ l.map key, k ∉ seen) : accDedup key l seen = (l, 0) := by
  induction l generalizing seen with
  | nil => simp [accDedup]
  | cons c rest ih =>
    simp only [List.map_cons, List.nodup_cons] at h1
    have hcs : key c ∉ seen := h2 (key c) (by simp)
    have hrest : ∀ k ∈ rest.map key, k ∉ key c :: seen := by
      intro k hk
      simp only [List.mem_cons, not_or]
      refine ⟨?_, h2 k (by simp [hk])⟩
      rintro rfl
      exact h1.1 hk
    simp only [accDedup, if_neg hcs]
    rw [ih _ h1.2 hrest]

theorem accDedup_eq_posKeep {α : Type} [DecidableEq α] (key : Flashcard → α)
    (l : List Flashcard) (pre : List Flashcard) (seen : List α)
    (h : ∀ k, k ∈ seen ↔ k ∈ pre.map key) :
    (accDedup key l seen).1 = posKeep key pre l := by
  induction l generalizing pre seen with
  | nil => simp [accDedup, posKeep]
  | cons c rest ih =>
    have hiff : (key c ∈ seen) ↔ (key c ∈ pre.map key) := h (key c)
    by_cases hc : key c ∈ seen
    · simp only [accDedup, if_pos hc, posKeep, if_pos (hiff.mp hc)]
      refine ih (pre ++ [c]) seen ?_
      intro k
      simp only [List.map_append, List.mem_append, List.map_cons, List.map_nil,
        List.mem_singleton, List.mem_cons, List.not_mem_nil, or_false]
      constructor
      · intro hk; exact Or.inl ((h k).mp hk)
      · rintro (hk | rfl)
        · exact (h k).mpr hk
        · exact hc
    · simp only [accDedup, if_neg hc, posKeep, if_neg (fun hx => hc (hiff.mpr hx))]
      refine congrArg (c :: ·) ?_
      refine ih (pre ++ [c]) (key c :: seen) ?_
      intro k
      simp only [List.map_append, List.mem_append, List.map_cons, List.map_nil,
        List.mem_singleton, List.mem_cons, List.not_mem_nil, or_false]
      rw [h k]
      exact or_comm

theorem pass2One_sublist (l : List Flashcard) (p : String) (seen : List String) :
    (pass2One l p seen).1.Sublist l := by
  induction l generalizing seen with
  | nil => simp [pass2One]
  | cons c rest ih =>
    simp only [pass2One]
    split
    · split
      · exact (ih seen).cons c
      · exact (ih _).cons₂ c
    · exact (ih seen).cons₂ c

theorem pass2One_len (l : List Flashcard) (p : String) (seen : List String) :
    (pass2One l p seen).1.length + (pass2One l p seen).2 = l.length := by
  induction l generalizing seen with
  | nil => simp [pass2One]
  | cons c rest ih =>
    simp only [pass2One]
    split
    · split
      · have := ih seen; simp only [List.length_cons]; omega
      · have := ih (c.front :: seen); simp only [List.length_cons]; omega
    · have := ih seen; simp only [List.length_cons]; omega

theorem pass2One_not_seen (l : List Flashcard) (p : String) (seen : List String) :
    ∀ c ∈ (pass2One l p seen).1, c.presentationName = p → c.front ∉ seen := by
  induction l generalizing seen with
  | nil => simp [pass2One]
  | cons c rest ih =>
    simp only [pass2One]
    split
    · rename_i hp
      split
      · exact ih seen
      · rename_i hf
        intro d hd hdp
        rcases List.mem_cons.mp hd with rfl | hd'
        · exact hf
        · intro hds
          exact ih _ d hd' hdp (by simp [hds])
    · intro d hd hdp
      rcases List.mem_cons.mp hd with rfl | hd'
      · rename_i hp; exact absurd hdp hp
      · exact ih seen d hd' hdp

/-- The per-presentation pass leaves no two records of presentation `p` with
the same `front`. -/
theorem pass2One_pairwise (l : List Flashcard) (p : String) (seen : List String) :
    (pass2One l p seen).1.Pairwise
      (fun c d => ¬(c.presentationName = p ∧ d.presentationName = p ∧ c.front = d.front)) := by
  induction l generalizing seen with
  | nil => simp [pass2One]
  | cons c rest ih =>
    simp only [pass2One]
    split
    · rename_i hp
      split
      · exact ih seen
      · refine List.Pairwise.cons ?_ (ih _)
        intro d hd
        rintro ⟨-, hdp, hfront⟩
        exact pass2One_not_seen rest p _ d hd hdp (by simp [hfront.symm])
    · rename_i hp
      refine List.Pairwise.cons ?_ (ih seen)
      intro d _
      rintro ⟨hcp, -, -⟩
      exact hp hcp

theorem pass2One_id (l : List Flashcard) (p : String) (seen : List String)
    (h1 : ((l.filter fun c => c.presentationName = p).map fun c => c.front).Nodup)
    (h2 : ∀ c ∈ l, c.presentationName = p → c.front ∉ seen) :
    pass2One l p seen = (l, 0) := by
  induction l generalizing seen with
  | nil => simp [pass2One]
  | cons c rest ih =>
    by_cases hp : c.presentationName = p
    · have hfs : c.front ∉ seen := h2 c (by simp) hp
      have h1' := h1
      rw [List.filter_cons_of_pos (by simp [hp])] at h1'
      simp only [List.map_cons, List.nodup_cons, List.mem_map, List.mem_filter] at h1'
      simp only [pass2One, if_pos hp, if_neg hfs]
      rw [ih _ h1'.2 ?_]
      intro d hd hdp
      simp only [List.mem_cons, not_or]
      constructor
      · intro hdf
        exact h1'.1 ⟨d, by simp [hd, hdp], hdf⟩
      · exact h2 d (by simp [hd]) hdp
    · have h1' := h1
      rw [List.filter_cons_of_neg (by simp [hp])] at h1'
      simp only [pass2One, if_neg hp]
      rw [ih seen h1' (fun d hd => h2 d (by simp [hd]))]

theorem pass2_sublist (ps : List String) (l : List Flashcard) :
    (pass2 ps l).1.Sublist l := by
  induction ps generalizing l with
  | nil => simp [pass2]
  | cons p ps ih =>
    simp only [pass2]
    exact (ih _).trans (pass2One_sublist l p [])

theorem pass2_len (ps : List String) (l : List Flashcard) :
    (pass2 ps l).1.length + (pass2 ps l).2 = l.length := by
  induction ps generalizing l with
  | nil => simp [pass2]
  | cons p ps ih =>
    simp only [pass2]
    have h1 := pass2One_len l p []
    have h2 := ih (pass2One l p []).1
    omega

theorem pass2_id (ps : List String) (l : List Flashcard)
    (h : ∀ p ∈ ps, ((l.filter fun c => c.presentationName = p).map fun c => c.front).Nodup) :
    pass2 ps l = (l, 0) := by
  induction ps with
  | nil => simp [pass2]
  | cons p ps ih =>
    have h1 : pass2One l p [] = (l, 0) :=
      pass2One_id l p [] (h p (by simp)) (by simp)
    simp only [pass2, h1]
    rw [ih (fun q hq => h q (by simp [hq]))]
    simp

/-- Deleting the later same-presentation same-front records first (one
`pass2One` sweep) does not change what a subsequent first-wins pass keyed on
(presentation, front) keeps: the deleted records were exactly the ones that
pass would have deleted. -/
theorem accDedup_pairKey_absorb (p : String) (l : List Flashcard)
    (fseen : List String) (pseen : List (String × String))
    (h : ∀ f, f ∈ fseen ↔ (p, f) ∈ pseen) :
    (accDedup pairKey (pass2One l p fseen).1 pseen).1 = (accDedup pairKey l pseen).1 := by
  induction l generalizing fseen pseen with
  | nil => simp [pass2One]
  | cons c rest ih =>
    by_cases hp : c.presentationName = p
    · by_cases hf : c.front ∈ fseen
      · have hkc : pairKey c ∈ pseen := by
          have := (h c.front).mp hf
          simpa [pairKey, hp] using this
        simp only [pass2One, if_pos hp, if_pos hf]
        rw [ih fseen pseen h]
        conv_rhs => rw [accDedup, if_pos hkc]
      · have hkc : pairKey c ∉ pseen := by
          intro hmem
          exact hf ((h c.front).mpr (by simpa [pairKey, hp] using hmem))
        simp only [pass2One, if_pos hp, if_neg hf]
        simp only [accDedup, if_neg hkc]
        refine congrArg (c :: ·) ?_
        refine ih (c.front :: fseen) (pairKey c :: pseen) ?_
        intro f
        simp only [List.mem_cons, pairKey, hp]
        constructor
        · rintro (rfl | hfm)
          · exact Or.inl rfl
          · exact Or.inr ((h f).mp hfm)
        · rintro (hpair | hfm)
          · exact Or.inl (congrArg Prod.snd hpair)
          · exact Or.inr ((h f).mpr hfm)
    · simp only [pass2One, if_neg hp]
      by_cases hkc : pairKey c ∈ pseen
      · simp only [accDedup, if_pos hkc]
        exact ih fseen pseen h
      · simp only [accDedup, if_neg hkc]
        refine congrArg (c :: ·) ?_
        refine ih fseen (pairKey c :: pseen) ?_
        intro f
        rw [h f]
        simp only [List.mem_cons, pairKey]
        constructor
        · exact Or.inr
        · rintro (hpair | hfm)
          · exact absurd (congrArg Prod.fst hpair).symm hp
          · exact hfm

/-- The per-presentation sweeps over every presentation occurring in the store
amount to a single first-wins pass keyed on (presentation, front). -/
theorem pass2_eq_accDedup_pairKey (ps : List String) (l : List Flashcard)
    (h : l.Pairwise (fun c d => pairKey c = pairKey d → d.presentationName ∈ ps)) :
    (pass2 ps l).1 = (accDedup pairKey l []).1 := by
  induction ps generalizing l with
  | nil =>
    have hnd : (l.map pairKey).Nodup :=
      List.Pairwise.map pairKey
        (fun a b hab hk => absurd (hab hk) (List.not_mem_nil _)) h
    rw [accDedup_id pairKey l [] hnd (by simp)]
    simp [pass2]
  | cons p ps ih =>
    have hsub := pass2One_sublist l p []
    have hA : (pass2One l p []).1.Pairwise
        (fun c d => pairKey c = pairKey d → d.presentationName ∈ p :: ps) :=
      h.sublist hsub
    have hB := pass2One_pairwise l p []
    have hAB : (pass2One l p []).1.Pairwise
        (fun c d => pairKey c = pairKey d → d.presentationName ∈ ps) := by
      refine (hA.and hB).imp ?_
      rintro c d ⟨h1, h2⟩ hk
      have hpres : c.presentationName = d.presentationName := congrArg Prod.fst hk
      have hfront : c.front = d.front := congrArg Prod.snd hk
      rcases List.mem_cons.mp (h1 hk) with hdp | hdm
      · exact absurd ⟨hpres.trans hdp, hdp, hfront⟩ h2
      · exact hdm
    simp only [pass2]
    rw [ih _ hAB]
    exact accDedup_pairKey_absorb p l [] [] (by simp)

/-- If no two records share a (presentation, front) pair, then within each
presentation no two records share a `front`. -/
theorem front_filter_nodup_of_pairKey_nodup (l : List Flashcard)
    (h : (l.map pairKey).Nodup) (p : String) :
    ((l.filter fun c => c.presentationName = p).map fun c => c.front).Nodup := by
  induction l with
  | nil => simp
  | cons c rest ih =>
    simp only [List.map_cons, List.nodup_cons] at h
    by_cases hp : c.presentationName = p
    · rw [List.filter_cons_of_pos (by simp [hp])]
      simp only [List.map_cons, List.nodup_cons]
      refine ⟨?_, ih h.2⟩
      intro hmem
      simp only [List.mem_map, List.mem_filter] at hmem
      obtain ⟨d, ⟨hdr, hdp⟩, hdf⟩ := hmem
      refine h.1 ?_
      have : pairKey d = pairKey c := by
        simp only [pairKey]
        rw [of_decide_eq_true hdp, hp, hdf]
      rw [← this]
      exact List.mem_map_of_mem pairKey hdr
    · rw [List.filter_cons_of_neg (by simp [hp])]
      exact ih h.2

/-- C5 counterexample: on two records whose stripped (front, back, kind)
tuples differ but whose pipe-joined key strings coincide (fields containing
`'|'`), the code deletes the second record while the claimed tuple-keyed pass
would keep both and remove nothing. -/
theorem c5_counterexample :
    remove_duplicates
        [⟨"vocabulary", "a|b", "c", "P"⟩, ⟨"vocabulary", "a", "b|c", "P"⟩] =
      ([⟨"vocabulary", "a|b", "c", "P"⟩], 1) ∧
    specRemoveDuplicatesWith tupleKey
        [⟨"vocabulary", "a|b", "c", "P"⟩, ⟨"vocabulary", "a", "b|c", "P"⟩] =
      ([⟨"vocabulary", "a|b", "c", "P"⟩, ⟨"vocabulary", "a", "b|c", "P"⟩], 0) := by
  decide

/-- C5 (amended): the dedup operation performs exactly two passes in order:
first a cross-document first-wins pass over the full store whose key is the
single string obtained by joining the whitespace-stripped front, back and kind
with `'|'` (not the field tuple), keeping the first occurrence in stable
iteration order and deleting every later record sharing the key; then a
per-presentation first-wins pass over the remaining records keyed on the exact
(unstripped) `front` within each `presentationName`, deleting later records
with the same front even when back or kind differ; the operation returns the
total count removed by both passes. -/
theorem c5_remove_duplicates_spec (db : List Flashcard) :
    remove_duplicates db = specRemoveDuplicatesWith contentKey db := by
  have h1 : (accDedup contentKey db []).1 = posKeep contentKey [] db :=
    accDedup_eq_posKeep contentKey db [] [] (by simp)
  have hpair : (accDedup contentKey db []).1.Pairwise
      (fun c d => pairKey c = pairKey d →
        d.presentationName ∈ (db.map fun c => c.presentationName).dedup) := by
    refine List.pairwise_of_forall_mem_list ?_
    intro a _ b hb _
    have hbdb : b ∈ db := (accDedup_sublist contentKey db []).subset hb
    rw [List.mem_dedup]
    exact List.mem_map_of_mem _ hbdb
  have h2 : (pass2 ((db.map fun c => c.presentationName).dedup)
        (accDedup contentKey db []).1).1
      = (accDedup pairKey (accDedup contentKey db []).1 []).1 :=
    pass2_eq_accDedup_pairKey _ _ hpair
  have h3 : (accDedup pairKey (accDedup contentKey db []).1 []).1
      = posKeep pairKey [] (posKeep contentKey [] db) := by
    rw [← h1]
    exact accDedup_eq_posKeep pairKey _ [] [] (by simp)
  have hl1 := accDedup_len contentKey db []
  have hl2 := pass2_len ((db.map fun c => c.presentationName).dedup)
    (accDedup contentKey db []).1
  have hlen1 : (posKeep contentKey [] db).length = (accDedup contentKey db []).1.length := by
    rw [h1]
  have hlen2 : (posKeep pairKey [] (posKeep contentKey [] db)).length
      = (pass2 ((db.map fun c => c.presentationName).dedup)
          (accDedup contentKey db []).1).1.length := by
    rw [h2, h3]
  simp only [remove_duplicates, specRemoveDuplicatesWith]
  refine Prod.ext ?_ ?_
  · simpa using h2.trans h3
  · simp only
    omega

/-- C6: the dedup operation is idempotent - immediately re-running it on its
own output removes zero records. -/
theorem c6_remove_duplicates_idempotent (db : List Flashcard) :
    (remove_duplicates (remove_duplicates db).1).2 = 0 := by
  have hfst : (remove_duplicates db).1
      = (pass2 ((db.map fun c => c.presentationName).dedup)
          (accDedup contentKey db []).1).1 := by
    simp only [remove_duplicates]
  set s1 := (accDedup contentKey db []).1 with hs1
  set s2 := (pass2 ((db.map fun c => c.presentationName).dedup) s1).1 with hs2
  have hnodup1 : (s1.map contentKey).Nodup := (accDedup_nodup contentKey db []).1
  have hsub : s2.Sublist s1 := pass2_sublist _ _
  have hnodup2 : (s2.map contentKey).Nodup := hnodup1.sublist (hsub.map contentKey)
  have hpair : s1.Pairwise (fun c d => pairKey c = pairKey d →
      d.presentationName ∈ (db.map fun c => c.presentationName).dedup) := by
    refine List.pairwise_of_forall_mem_list ?_
    intro a _ b hb _
    have hbdb : b ∈ db := (accDedup_sublist contentKey db []).subset hb
    rw [List.mem_dedup]
    exact List.mem_map_of_mem _ hbdb
  have hs2acc : s2 = (accDedup pairKey s1 []).1 :=
    pass2_eq_accDedup_pairKey _ _ hpair
  have hpk : (s2.map pairKey).Nodup := by
    rw [hs2acc]
    exact (accDedup_nodup pairKey s1 []).1
  have hid1 : accDedup contentKey s2 [] = (s2, 0) :=
    accDedup_id contentKey s2 [] hnodup2 (by simp)
  have hid2 : pass2 ((s2.map fun c => c.presentationName).dedup) s2 = (s2, 0) :=
    pass2_id _ s2 (fun p _ => front_filter_nodup_of_pairKey_nodup s2 hpk p)
  rw [hfst]
  simp only [remove_duplicates, hid1]
  simp [hid2]

/-- C9: the cross-document pass keys each record by the single pipe-joined
string of its stripped fields, so two records with distinct (front, back,
kind) tuples whose fields contain `'|'` can collide (front `"a|b"`/back `"c"`
versus front `"a"`/back `"b|c"`), and the later record is deleted as a
duplicate even though its field tuple differs from the kept record's. -/
theorem c9_pipe_join_collision :
    contentKey ⟨"vocabulary", "a|b", "c", "P"⟩
        = contentKey ⟨"vocabulary", "a", "b|c", "Q"⟩ ∧
    tupleKey ⟨"vocabulary", "a|b", "c", "P"⟩
        ≠ tupleKey ⟨"vocabulary", "a", "b|c", "Q"⟩ ∧
    remove_duplicates [⟨"vocabulary", "a|b", "c", "P"⟩, ⟨"vocabulary", "a", "b|c", "Q"⟩]
        = ([⟨"vocabulary", "a|b", "c", "P"⟩], 1) := by
  decide

theorem save_noSession (sess : SessionState) (db0 : List Flashcard) (inp : SaveInput)
    (cOk iOk : Bool) (h : sess.pendingFlashcards = []) :
    save_flashcards sess db0 inp cOk iOk = ⟨.noSession, sess, db0, 0, 0⟩ := by
  simp [save_flashcards, h]

theorem save_earlyNothing (sess : SessionState) (db0 : List Flashcard) (inp : SaveInput)
    (cOk iOk : Bool) (hb : sess.pendingFlashcards ≠ [])
    (hp : parseIndices inp.selectedRaw = []) :
    save_flashcards sess db0 inp cOk iOk = ⟨.nothingSelected, sess, db0, 0, 0⟩ := by
  simp [save_flashcards, hb, hp]

theorem save_indexError (sess : SessionState) (db0 : List Flashcard) (inp : SaveInput)
    (cOk iOk : Bool) (hb : sess.pendingFlashcards ≠ [])
    (hp : parseIndices inp.selectedRaw ≠ [])
    (hsel : selectCards sess.pendingFlashcards (parseIndices inp.selectedRaw) = none) :
    save_flashcards sess db0 inp cOk iOk = ⟨.indexError, sess, db0, 0, 0⟩ := by
  simp [save_flashcards, hb, hp, hsel]

theorem save_lateNothing (sess : SessionState) (db0 : List Flashcard) (inp : SaveInput)
    (cOk iOk : Bool) (sel : List Card) (hb : sess.pendingFlashcards ≠ [])
    (hp : parseIndices inp.selectedRaw ≠ [])
    (hsel : selectCards sess.pendingFlashcards (parseIndices inp.selectedRaw) = some sel)
    (hcand : sel ++ buildCustoms inp.customFronts inp.customBacks inp.customTypes = []) :
    save_flashcards sess db0 inp cOk iOk = ⟨.nothingSelected, sess, db0, 0, 0⟩ := by
  simp [save_flashcards, hb, hp, hsel, hcand]

theorem save_main (sess : SessionState) (db0 : List Flashcard) (inp : SaveInput)
    (cOk iOk : Bool) (sel : List Card) (hb : sess.pendingFlashcards ≠ [])
    (hp : parseIndices inp.selectedRaw ≠ [])
    (hsel : selectCards sess.pendingFlashcards (parseIndices inp.selectedRaw) = some sel)
    (hcand : sel ++ buildCustoms inp.customFronts inp.customBacks inp.customTypes ≠ []) :
    save_flashcards sess db0 inp cOk iOk =
      (if inp.clearExisting ∧ ¬ cOk then ⟨.persistenceError, sess, db0, 0, 0⟩
       else
        (let p := sess.presentationName.getD "custom"
         let db1 := if inp.clearExisting then
            db0.filter (fun r => r.presentationName ≠ p) else db0
         let r := insertLoop p db1
           (sel ++ buildCustoms inp.customFronts inp.customBacks inp.customTypes)
         if iOk then ⟨.success, ⟨[], none⟩, r.1, r.2.1, r.2.2⟩
         else ⟨.persistenceError, sess, db1, 0, 0⟩)) := by
  simp only [save_flashcards, if_neg hb, if_neg hp, hsel, if_neg hcand]

/-- C1 counterexample: with `clearExisting` requested and a persistence
failure at the insertion commit, the store is *not* left as it was before the
call - the deletion of presentation `"P"` survives. -/
theorem c1_counterexample :
    (save_flashcards ⟨[⟨"vocabulary", "f", "b"⟩], some "P"⟩
        [⟨"vocabulary", "y", "z", "P"⟩] ⟨[.num 0], [], [], [], true⟩
        true false).outcome = .persistenceError ∧
    (save_flashcards ⟨[⟨"vocabulary", "f", "b"⟩], some "P"⟩
        [⟨"vocabulary", "y", "z", "P"⟩] ⟨[.num 0], [], [], [], true⟩
        true false).db ≠ [⟨"vocabulary", "y", "z", "P"⟩] := by
  decide

/-- C1 (amended): with `clearExisting` requested, the deletion of the records
of `sourceName` is committed in its own earlier transaction: if that deletion
commit fails the operation reports a persistence error with the store
unchanged, but if the deletion commit succeeds and the insertion commit fails
the operation reports a persistence error with the deletions already applied
(the store equals the prior store minus the `sourceName` records); only when
both commits succeed are the candidates inserted into the cleared store. -/
theorem c1_clear_commit_split (sess : SessionState) (db0 : List Flashcard)
    (inp : SaveInput) (sel : List Card)
    (hclear : inp.clearExisting = true)
    (hb : sess.pendingFlashcards ≠ [])
    (hp : parseIndices inp.selectedRaw ≠ [])
    (hsel : selectCards sess.pendingFlashcards (parseIndices inp.selectedRaw) = some sel)
    (hcand : sel ++ buildCustoms inp.customFronts inp.customBacks inp.customTypes ≠ []) :
    (∀ iOk, save_flashcards sess db0 inp false iOk = ⟨.persistenceError, sess, db0, 0, 0⟩) ∧
    save_flashcards sess db0 inp true false =
      ⟨.persistenceError, sess,
        db0.filter (fun r => r.presentationName ≠ sess.presentationName.getD "custom"), 0, 0⟩ ∧
    save_flashcards sess db0 inp true true =
      ⟨.success, ⟨[], none⟩,
        (insertLoop (sess.presentationName.getD "custom")
          (db0.filter fun r => r.presentationName ≠ sess.presentationName.getD "custom")
          (sel ++ buildCustoms inp.customFronts inp.customBacks inp.customTypes)).1,
        (insertLoop (sess.presentationName.getD "custom")
          (db0.filter fun r => r.presentationName ≠ sess.presentationName.getD "custom")
          (sel ++ buildCustoms inp.customFronts inp.customBacks inp.customTypes)).2.1,
        (insertLoop (sess.presentationName.getD "custom")
          (db0.filter fun r => r.presentationName ≠ sess.presentationName.getD "custom")
          (sel ++ buildCustoms inp.customFronts inp.customBacks inp.customTypes)).2.2⟩ := by
  refine ⟨?_, ?_, ?_⟩
  · intro iOk
    rw [save_main sess db0 inp false iOk sel hb hp hsel hcand]
    simp [hclear]
  · rw [save_main sess db0 inp true false sel hb hp hsel hcand]
    simp [hclear]
  · rw [save_main sess db0 inp true true sel hb hp hsel hcand]
    simp [hclear]

/-- C1 witness: a concrete clear-then-fail-to-insert call where the deletions
survive the insertion failure. -/
theorem c1_witness :
    save_flashcards ⟨[⟨"vocabulary", "f", "b"⟩], some "P"⟩
        [⟨"vocabulary", "y", "z", "P"⟩, ⟨"vocabulary", "w", "v", "Q"⟩]
        ⟨[.num 0], [], [], [], true⟩ true false
      = ⟨.persistenceError, ⟨[⟨"vocabulary", "f", "b"⟩], some "P"⟩,
          [⟨"vocabulary", "w", "v", "Q"⟩], 0, 0⟩ := by
  have h := c1_clear_commit_split ⟨[⟨"vocabulary", "f", "b"⟩], some "P"⟩
      [⟨"vocabulary", "y", "z", "P"⟩, ⟨"vocabulary", "w", "v", "Q"⟩]
      ⟨[.num 0], [], [], [], true⟩ [⟨"vocabulary", "f", "b"⟩]
      rfl (by decide) (by decide) (by decide) (by decide)
  exact h.2.1.trans (by decide)

/-- C3 counterexample: an empty `selectedIndices` list together with a custom
entry that is valid (non-empty prompt and explanation after trimming) fails
with the nothing-selected outcome and inserts nothing, although the combined
candidate set the claim describes is non-empty. -/
theorem c3_counterexample :
    buildCustoms ["cf"] ["cb"] ["vocabulary"] ≠ [] ∧
    save_flashcards ⟨[⟨"vocabulary", "f", "b"⟩], some "P"⟩ []
        ⟨[], ["cf"], ["cb"], ["vocabulary"], false⟩ true true
      = ⟨.nothingSelected, ⟨[⟨"vocabulary", "f", "b"⟩], some "P"⟩, [], 0, 0⟩ := by
  decide

/-- C3 (amended): the candidate set is the batch items at the valid selected
indices, in the order the indices were submitted, followed by the valid
custom entries in submission order.  A commit fails with the nothing-selected
outcome and no store mutation in two situations - when the parsed selected
index list is empty (custom entries are then never considered, so a commit
with an empty `selectedIndices` list and valid custom entries still fails),
and when the built candidate set is empty; when the parsed index list and the
built candidate set are both non-empty the outcome is never nothing-selected,
and on successful commits exactly that candidate set is fed to the
duplicate-checking insert loop. -/
theorem c3_nothing_selected_paths (sess : SessionState) (db0 : List Flashcard)
    (inp : SaveInput) (cOk iOk : Bool) (hb : sess.pendingFlashcards ≠ []) :
    (parseIndices inp.selectedRaw = [] →
      save_flashcards sess db0 inp cOk iOk = ⟨.nothingSelected, sess, db0, 0, 0⟩) ∧
    (∀ sel, parseIndices inp.selectedRaw ≠ [] →
      selectCards sess.pendingFlashcards (parseIndices inp.selectedRaw) = some sel →
      ((sel ++ buildCustoms inp.customFronts inp.customBacks inp.customTypes = [] →
          save_flashcards sess db0 inp cOk iOk = ⟨.nothingSelected, sess, db0, 0, 0⟩) ∧
       (sel ++ buildCustoms inp.customFronts inp.customBacks inp.customTypes ≠ [] →
          (save_flashcards sess db0 inp cOk iOk).outcome ≠ .nothingSelected) ∧
       (sel ++ buildCustoms inp.customFronts inp.customBacks inp.customTypes ≠ [] →
          save_flashcards sess db0 inp true true
            = ⟨.success, ⟨[], none⟩,
                (insertLoop (sess.presentationName.getD "custom")
                  (if inp.clearExisting then
                    db0.filter
                      (fun r => r.presentationName ≠ sess.presentationName.getD "custom")
                  else db0)
                  (sel ++ buildCustoms inp.customFronts inp.customBacks inp.customTypes)).1,
                (insertLoop (sess.presentationName.getD "custom")
                  (if inp.clearExisting then
                    db0.filter
                      (fun r => r.presentationName ≠ sess.presentationName.getD "custom")
                  else db0)
                  (sel ++ buildCustoms inp.customFronts inp.customBacks inp.customTypes)).2.1,
                (insertLoop (sess.presentationName.getD "custom")
                  (if inp.clearExisting then
                    db0.filter
                      (fun r => r.presentationName ≠ sess.presentationName.getD "custom")
                  else db0)
                  (sel ++ buildCustoms inp.customFronts inp.customBacks inp.customTypes)).2.2⟩))) := by
  refine ⟨fun hp => save_earlyNothing sess db0 inp cOk iOk hb hp, ?_⟩
  intro sel hp hsel
  refine ⟨fun hcand => save_lateNothing sess db0 inp cOk iOk sel hb hp hsel hcand, ?_, ?_⟩
  · intro hcand
    rw [save_main sess db0 inp cOk iOk sel hb hp hsel hcand]
    split
    · simp
    · dsimp only
      split <;> simp
  · intro hcand
    rw [save_main sess db0 inp true true sel hb hp hsel hcand]
    simp

/-- C3 witness: with one valid numeric index (even out of range) the custom
entries are committed, and with an empty index list they are not. -/
theorem c3_witness :
    save_flashcards ⟨[⟨"vocabulary", "g", "h"⟩], some "Q"⟩
        [⟨"vocabulary", "r", "s", "Q"⟩] ⟨[], ["x"], ["y"], ["formula"], false⟩ false false
      = ⟨.nothingSelected, ⟨[⟨"vocabulary", "g", "h"⟩], some "Q"⟩,
          [⟨"vocabulary", "r", "s", "Q"⟩], 0, 0⟩ :=
  (c3_nothing_selected_paths ⟨[⟨"vocabulary", "g", "h"⟩], some "Q"⟩
      [⟨"vocabulary", "r", "s", "Q"⟩] ⟨[], ["x"], ["y"], ["formula"], false⟩
      false false (by decide)).1 (by decide)

/-- C4 counterexample: the selected index `-1` is not ignored - it selects the
last batch item (Python negative indexing), which is inserted. -/
theorem c4_counterexample :
    save_flashcards ⟨[⟨"vocabulary", "f0", "b0"⟩, ⟨"vocabulary", "f1", "b1"⟩], some "P"⟩
        [] ⟨[.num (-1)], [], [], [], false⟩ true true
      = ⟨.success, ⟨[], none⟩, [⟨"vocabulary", "f1", "b1", "P"⟩], 1, 0⟩ := by
  decide

/-- C4 (amended): a selected index at least `len(batch)` is silently ignored
and contributes no candidate; a negative index is not ignored - for
`-len ≤ i < 0` it selects the batch item at position `len + i`, and for
`i < -len` the lookup raises, so the whole save fails with an error and no
store mutation; a non-numeric value anywhere in the selection discards the
entire selection (treated as no selection). -/
theorem c4_index_handling :
    (∀ (batch : List Card) (i : Int), (batch.length : Int) ≤ i →
        selectCards batch [i] = some []) ∧
    (∀ (batch : List Card) (i : Int), i < 0 → 0 ≤ i + (batch.length : Int) →
        selectCards batch [i]
          = (batch.get? (i + (batch.length : Int)).toNat).map (fun c => [c])) ∧
    (∀ (batch : List Card) (i : Int), i + (batch.length : Int) < 0 →
        selectCards batch [i] = none) ∧
    (∀ (sess : SessionState) (db0 : List Flashcard) (inp : SaveInput) (cOk iOk : Bool),
        sess.pendingFlashcards ≠ [] →
        parseIndices inp.selectedRaw ≠ [] →
        selectCards sess.pendingFlashcards (parseIndices inp.selectedRaw) = none →
        save_flashcards sess db0 inp cOk iOk = ⟨.indexError, sess, db0, 0, 0⟩) ∧
    (∀ raw : List FormVal, FormVal.nonNum ∈ raw → parseIndices raw = []) := by
  refine ⟨?_, ?_, ?_, ?_, ?_⟩
  · intro batch i h
    simp [selectCards, not_lt.mpr h]
  · intro batch i h1 h2
    have hlt : i < (batch.length : Int) := lt_of_lt_of_le h1 (Int.ofNat_nonneg _)
    cases hg : batch.get? (i + (batch.length : Int)).toNat with
    | none =>
      rw [List.get?_eq_getElem?] at hg
      simp [selectCards, pyGet, hlt, not_le.mpr h1, h2, hg]
    | some c =>
      rw [List.get?_eq_getElem?] at hg
      simp [selectCards, pyGet, hlt, not_le.mpr h1, h2, hg]
  · intro batch i h
    have h1 : i < 0 := by
      have := Int.ofNat_nonneg batch.length
      omega
    have hlt : i < (batch.length : Int) := lt_of_lt_of_le h1 (Int.ofNat_nonneg _)
    simp [selectCards, pyGet, hlt, not_le.mpr h1, not_le.mpr h]
  · exact fun sess db0 inp cOk iOk hb hp hsel =>
      save_indexError sess db0 inp cOk iOk hb hp hsel
  · intro raw h
    have : raw.any (fun v => match v with | .nonNum => true | .num _ => false) = true :=
      List.any_eq_true.mpr ⟨FormVal.nonNum, h, rfl⟩
    simp [parseIndices, this]

/-- C4 witness: index `-1` on a two-element batch selects the second item;
index `2` is ignored; index `-3` raises; a non-numeric entry discards all. -/
theorem c4_witness :
    selectCards [⟨"vocabulary", "f0", "b0"⟩, ⟨"vocabulary", "f1", "b1"⟩] [(-1 : Int)]
      = some [⟨"vocabulary", "f1", "b1"⟩] ∧
    selectCards [⟨"vocabulary", "f0", "b0"⟩, ⟨"vocabulary", "f1", "b1"⟩] [(2 : Int)]
      = some [] ∧
    selectCards [⟨"vocabulary", "f0", "b0"⟩, ⟨"vocabulary", "f1", "b1"⟩] [(-3 : Int)]
      = none ∧
    parseIndices [FormVal.num 0, FormVal.nonNum] = [] := by
  refine ⟨?_, ?_, ?_, ?_⟩
  · exact (c4_index_handling.2.1 _ (-1) (by decide) (by decide)).trans (by decide)
  · exact c4_index_handling.1 _ 2 (by decide)
  · exact c4_index_handling.2.2.1 _ (-3) (by decide)
  · exact c4_index_handling.2.2.2.2 _ (by decide)

theorem presFrontUnique_sublist (l1 l2 : List Flashcard) (hsub : l1.Sublist l2)
    (h : PresFrontUnique l2) : PresFrontUnique l1 :=
  List.Pairwise.sublist hsub h

theorem insertLoop_preserves (p : String) (cands : List Card) (db : List Flashcard)
    (h : PresFrontUnique db) : PresFrontUnique (insertLoop p db cands).1 := by
  induction cands generalizing db with
  | nil => simpa [insertLoop] using h
  | cons c rest ih =>
    by_cases hdup : (db.any fun r => r.front = c.front ∧ r.presentationName = p) = true
    · simp only [insertLoop, if_pos hdup]
      exact ih db h
    · simp only [insertLoop, if_neg hdup]
      refine ih _ ?_
      rw [PresFrontUnique, List.pairwise_append]
      refine ⟨h, List.pairwise_singleton _ _, ?_⟩
      intro r hr x hx
      simp only [List.mem_singleton] at hx
      subst hx
      rintro ⟨hpres, hfront⟩
      simp only [List.any_eq_true, decide_eq_true_eq, not_exists, not_and] at hdup
      exact hdup r hr (by simpa using hfront) (by simpa using hpres)

theorem save_preserves_unique (sess : SessionState) (db0 : List Flashcard)
    (inp : SaveInput) (cOk iOk : Bool) (h : PresFrontUnique db0) :
    PresFrontUnique (save_flashcards sess db0 inp cOk iOk).db := by
  unfold save_flashcards
  dsimp only
  split
  · exact h
  · split
    · exact h
    · split
      · exact h
      · split
        · exact h
        · split
          · exact h
          · split
            · apply insertLoop_preserves
              split
              · exact presFrontUnique_sublist _ _ (List.filter_sublist _) h
              · exact h
            · dsimp only
              split
              · exact presFrontUnique_sublist _ _ (List.filter_sublist _) h
              · exact h

theorem parseIndices_single_zero : parseIndices [FormVal.num 0] = [0] := by decide

theorem selectCards_single (c : Card) : selectCards [c] [0] = some [c] := by
  simp [selectCards, pyGet]

theorem save_single_new (c : Card) (p : String) (db0 : List Flashcard)
    (h : ∀ r ∈ db0, ¬(r.front = c.front ∧ r.presentationName = p)) :
    save_flashcards ⟨[c], some p⟩ db0 ⟨[.num 0], [], [], [], false⟩ true true
      = ⟨.success, ⟨[], none⟩, db0 ++ [⟨c.type, c.front, c.back, p⟩], 1, 0⟩ := by
  have hnex : ¬ ∃ x ∈ db0, x.front = c.front ∧ x.presentationName = p := by
    rintro ⟨r, hr, hfr⟩
    exact h r hr hfr
  rw [save_main ⟨[c], some p⟩ db0 ⟨[.num 0], [], [], [], false⟩ true true [c]
    (by simp) (by rw [parseIndices_single_zero]; simp)
    (by rw [parseIndices_single_zero]; exact selectCards_single c)
    (by simp [buildCustoms])]
  simp [buildCustoms, insertLoop, hnex]

theorem save_single_dup (c : Card) (p : String) (db : List Flashcard)
    (h : ∃ r ∈ db, r.front = c.front ∧ r.presentationName = p) :
    save_flashcards ⟨[c], some p⟩ db ⟨[.num 0], [], [], [], false⟩ true true
      = ⟨.success, ⟨[], none⟩, db, 0, 1⟩ := by
  rw [save_main ⟨[c], some p⟩ db ⟨[.num 0], [], [], [], false⟩ true true [c]
    (by simp) (by rw [parseIndices_single_zero]; simp)
    (by rw [parseIndices_single_zero]; exact selectCards_single c)
    (by simp [buildCustoms])]
  simp [buildCustoms, insertLoop, h]

/-- C2: every commit preserves the invariant that within a presentation at
most one record exists per `front` (the duplicate check also sees the inserts
pending in the same call), and committing the same candidate twice in two
separate calls leaves exactly one matching persisted record, the second call
succeeding with zero inserts and a skipped-duplicate count of 1. -/
theorem c2_front_unique_invariant :
    (∀ (sess : SessionState) (db0 : List Flashcard) (inp : SaveInput) (cOk iOk : Bool),
      PresFrontUnique db0 → PresFrontUnique (save_flashcards sess db0 inp cOk iOk).db) ∧
    (∀ (c : Card) (p : String) (db0 : List Flashcard),
      (∀ r ∈ db0, ¬(r.front = c.front ∧ r.presentationName = p)) →
      save_flashcards ⟨[c], some p⟩ db0 ⟨[.num 0], [], [], [], false⟩ true true
          = ⟨.success, ⟨[], none⟩, db0 ++ [⟨c.type, c.front, c.back, p⟩], 1, 0⟩ ∧
      save_flashcards ⟨[c], some p⟩
          (save_flashcards ⟨[c], some p⟩ db0 ⟨[.num 0], [], [], [], false⟩ true true).db
          ⟨[.num 0], [], [], [], false⟩ true true
          = ⟨.success, ⟨[], none⟩, db0 ++ [⟨c.type, c.front, c.back, p⟩], 0, 1⟩ ∧
      ((db0 ++ [(⟨c.type, c.front, c.back, p⟩ : Flashcard)]).filter
          (fun r => decide (r.front = c.front ∧ r.presentationName = p))).length = 1) := by
  refine ⟨save_preserves_unique, ?_⟩
  intro c p db0 h
  have h1 := save_single_new c p db0 h
  refine ⟨h1, ?_, ?_⟩
  · rw [h1]
    refine save_single_dup c p (db0 ++ [⟨c.type, c.front, c.back, p⟩]) ?_
    exact ⟨⟨c.type, c.front, c.back, p⟩, by simp, rfl, rfl⟩
  · rw [List.filter_append, List.length_append]
    have h0 : db0.filter (fun r => decide (r.front = c.front ∧ r.presentationName = p)) = [] := by
      rw [List.filter_eq_nil_iff]
      intro a ha
      simpa using h a ha
    rw [h0]
    simp

/-- C2 witness: a concrete candidate committed twice ends up persisted once,
with the second call reporting one skipped duplicate. -/
theorem c2_witness :
    save_flashcards ⟨[⟨"vocabulary", "f", "b"⟩], some "P"⟩
        (save_flashcards ⟨[⟨"vocabulary", "f", "b"⟩], some "P"⟩ []
          ⟨[.num 0], [], [], [], false⟩ true true).db
        ⟨[.num 0], [], [], [], false⟩ true true
      = ⟨.success, ⟨[], none⟩, [⟨"vocabulary", "f", "b", "P"⟩], 0, 1⟩ := by
  have h := (c2_front_unique_invariant.2 ⟨"vocabulary", "f", "b"⟩ "P" [] (by decide)).2.1
  exact h.trans (by decide)

/-- C7: a staged candidate whose `back` exceeds 300 characters is stored as
its first 297 characters followed by the three-character ellipsis marker,
giving exactly 300 characters; a `back` of at most 300 characters is stored
unchanged. -/
theorem c7_truncation (s : String) :
    (300 < s.length → truncBack s = s.take 297 ++ "..." ∧ (truncBack s).length = 300) ∧
    (s.length ≤ 300 → truncBack s = s) ∧
    (∀ cards : List Card,
      stageCards cards = cards.map fun c => ⟨c.type, c.front, truncBack c.back⟩) := by
  refine ⟨?_, ?_, fun cards => rfl⟩
  · intro h
    have he : truncBack s = s.take 297 ++ "..." := by simp [truncBack, h]
    refine ⟨he, ?_⟩
    rw [he, String.length_append, String.take_eq, String.length_mk, List.length_take]
    have h3 : ("..." : String).length = 3 := rfl
    have hd : s.data.length = s.length := String.length_data s
    rw [h3]
    omega
  · intro h
    simp [truncBack, not_lt.mpr h]

set_option maxRecDepth 4000 in
/-- C7 witness: a 400-character back is stored with exactly 300 characters;
a 297-character back is unchanged. -/
theorem c7_witness :
    (truncBack (String.mk (List.replicate 400 'a'))).length = 300 ∧
    truncBack (String.mk (List.replicate 297 'a')) = String.mk (List.replicate 297 'a') := by
  constructor
  · exact ((c7_truncation _).1 (by decide)).2
  · exact (c7_truncation _).2.1 (by decide)

/-- C8 counterexample: on a persistence failure during reset, the persisted
store is indeed unchanged, but the session staging store has already been
cleared - contradicting the claim that neither store changes. -/
theorem c8_counterexample :
    (reset_all ⟨[⟨"vocabulary", "f", "b"⟩], some "P"⟩
        [⟨"vocabulary", "f", "b", "P"⟩] false).2.1 = [⟨"vocabulary", "f", "b", "P"⟩] ∧
    (reset_all ⟨[⟨"vocabulary", "f", "b"⟩], some "P"⟩
        [⟨"vocabulary", "f", "b", "P"⟩] false).1 ≠ ⟨[⟨"vocabulary", "f", "b"⟩], some "P"⟩ := by
  decide

/-- C8 (amended): resetAll always clears the session staging store, even when
the persisted deletion fails; the persisted deletion is transactional - on
success all records are deleted and their count is returned, on failure the
persisted store is left unchanged (while the staging store stays cleared) and
no count is returned. -/
theorem c8_reset_all_spec (sess : SessionState) (db : List Flashcard) (commitOk : Bool) :
    (reset_all sess db commitOk).1 = ⟨[], none⟩ ∧
    (commitOk = true → reset_all sess db commitOk = (⟨[], none⟩, [], some db.length)) ∧
    (commitOk = false → reset_all sess db commitOk = (⟨[], none⟩, db, none)) := by
  cases commitOk <;> simp [reset_all]

/-- C8 witness: a successful reset on a two-record store deletes both and
reports a count of 2. -/
theorem c8_witness :
    reset_all ⟨[⟨"vocabulary", "f", "b"⟩], some "P"⟩
        [⟨"vocabulary", "x", "y", "P"⟩, ⟨"vocabulary", "z", "w", "Q"⟩] true
      = (⟨[], none⟩, [], some 2) := by
  have h := (c8_reset_all_spec ⟨[⟨"vocabulary", "f", "b"⟩], some "P"⟩
      [⟨"vocabulary", "x", "y", "P"⟩, ⟨"vocabulary", "z", "w", "Q"⟩] true).2.1 rfl
  exact h.trans (by decide)

theorem pyGet_mem (l : List α) (i : Int) (c : α) (h : pyGet l i = some c) : c ∈ l := by
  unfold pyGet at h
  split at h
  · exact List.get?_mem h
  · split at h
    · exact List.get?_mem h
    · exact absurd h (by simp)

/-- C10: the commit-time duplicate check compares `front` values exactly (no
whitespace normalization): a candidate whose `front` is not exactly present in
its presentation is inserted, even when a record differing only by surrounding
whitespace exists; custom entries enter the candidate set with `front`/`back`
stripped, while batch items selected by index are taken verbatim from the
staged batch. -/
theorem c10_exact_front_comparison :
    (∀ (p : String) (db : List Flashcard) (c : Card),
      (∀ r ∈ db, ¬(r.front = c.front ∧ r.presentationName = p)) →
      insertLoop p db [c] = (db ++ [⟨c.type, c.front, c.back, p⟩], 1, 0)) ∧
    (∀ (p : String) (db : List Flashcard) (c : Card) (r : Flashcard),
      r ∈ db → r.presentationName = p → pyStrip r.front = pyStrip c.front →
      (∀ r2 ∈ db, ¬(r2.front = c.front ∧ r2.presentationName = p)) →
      (insertLoop p db [c]).2.1 = 1 ∧ (insertLoop p db [c]).2.2 = 0) ∧
    (∀ (f b t : String) (fs bs ts : List String),
      buildCustoms (f :: fs) (b :: bs) (t :: ts)
        = (if pyStrip f ≠ "" ∧ pyStrip b ≠ "" then [⟨t, pyStrip f, pyStrip b⟩] else [])
            ++ buildCustoms fs bs ts) ∧
    (∀ (batch : List Card) (idxs : List Int) (sel : List Card),
      selectCards batch idxs = some sel → ∀ x ∈ sel, x ∈ batch) := by
  have hins : ∀ (p : String) (db : List Flashcard) (c : Card),
      (∀ r ∈ db, ¬(r.front = c.front ∧ r.presentationName = p)) →
      insertLoop p db [c] = (db ++ [⟨c.type, c.front, c.back, p⟩], 1, 0) := by
    intro p db c h
    have hnex : ¬ ∃ x ∈ db, x.front = c.front ∧ x.presentationName = p := by
      rintro ⟨r, hr, hfr⟩
      exact h r hr hfr
    simp [insertLoop, hnex]
  refine ⟨hins, ?_, fun f b t fs bs ts => rfl, ?_⟩
  · intro p db c r _ _ _ h2
    rw [hins p db c h2]
    exact ⟨rfl, rfl⟩
  · intro batch idxs
    induction idxs with
    | nil =>
      intro sel hsel x hx
      simp only [selectCards, Option.some.injEq] at hsel
      subst hsel
      exact absurd hx (List.not_mem_nil x)
    | cons i rest ih =>
      intro sel hsel x hx
      by_cases hlt : i < (batch.length : Int)
      · rw [selectCards, if_pos hlt] at hsel
        cases hg : pyGet batch i with
        | none => rw [hg] at hsel; exact absurd hsel (by simp)
        | some c =>
          rw [hg] at hsel
          simp only [Option.map_eq_some'] at hsel
          obtain ⟨s, hs, rfl⟩ := hsel
          rcases List.mem_cons.mp hx with rfl | hxs
          · exact pyGet_mem batch i x hg
          · exact ih s hs x hxs
      · rw [selectCards, if_neg hlt] at hsel
        exact ih sel hsel x hx

/-- C10 witness: a candidate whose front differs from a persisted record's
front only by trailing whitespace is inserted, not skipped. -/
theorem c10_witness :
    pyStrip "x " = pyStrip "x" ∧
    insertLoop "P" [⟨"vocabulary", "x ", "b", "P"⟩] [⟨"vocabulary", "x", "b"⟩]
      = ([⟨"vocabulary", "x ", "b", "P"⟩, ⟨"vocabulary", "x", "b", "P"⟩], 1, 0) := by
  refine ⟨by decide, ?_⟩
  exact (c10_exact_front_comparison.1 "P" _ _ (by decide)).trans (by decide)
